import Mathlib

/-!
Verification of `tools/build_rates.py` (uzb_banks): a fetch-parse-emit script
that scrapes buy/sell exchange rates from five Uzbek banks' web pages,
normalises numeric text, and writes a JSON feed, falling back to the central
bank (CBU) reference feed when every scrape fails.

Modelling conventions:
* Python `float` values are modelled as `ℚ` (the values involved are exact
  decimals; no floating-point rounding is modelled).
* A fetched HTML page is modelled as its sequence of table rows, each row the
  list of visible cell texts (`List (List String)`), which is exactly what the
  adapters consume: `soup.find_all("tr")` / nested table-row loops traverse the
  rows in document order and read `td.get_text(" ", strip=True)` per cell.
* Network effects are modelled by passing the fetch outcome explicitly:
  `fetch : String → Except String Page` maps a candidate URL to either an
  exception (with its message) or a parsed page.
* Python `str.strip()` / the regex class `\s` are modelled over the whitespace
  characters that can occur in the scraped inputs (ASCII whitespace and the
  no-break space U+00A0).
-/

/-- The no-break space character U+00A0. -/
def nbsp : Char := ' '

/-- Whitespace as stripped by Python `str.strip()` and matched by `\s`
(restricted to ASCII whitespace plus U+00A0). -/
def isPyWs (c : Char) : Bool :=
  c = ' ' || c = '\t' || c = '\n' || c = '\r' || c = '\x0b' || c = '\x0c' || c = nbsp

/-- Python `str.strip()`: drop leading and trailing whitespace. -/
def pyStrip (l : List Char) : List Char :=
  ((l.dropWhile isPyWs).reverse.dropWhile isPyWs).reverse

/-- `.replace("\xa0", " ")` on one character. -/
def nbspToSpace (c : Char) : Char := if c = nbsp then ' ' else c

/-- The character survives `.replace(" ", "")`. -/
def notSpace (c : Char) : Bool := !(c = ' ')

/-- `.replace(",", ".")` on one character. -/
def commaToDot (c : Char) : Char := if c = ',' then '.' else c

/-- The preprocessing in `_num`:
`x.strip().replace("\xa0"," ").replace(" ", "").replace(",", ".")`. -/
def numPre (l : List Char) : List Char :=
  (((pyStrip l).map nbspToSpace).filter notSpace).map commaToDot

/-- One or more digit characters (`\d+`). -/
def digitsNE (l : List Char) : Bool := !l.isEmpty && l.all Char.isDigit

/-- Match `\d+(\.\d+)?` against the whole list. -/
def wholeCore (l : List Char) : Bool :=
  let ip := l.takeWhile Char.isDigit
  let rest := l.drop ip.length
  !ip.isEmpty &&
    (rest.isEmpty ||
      (match rest with
       | '.' :: fr => digitsNE fr
       | _ => false))

/-- Whole-string match of `^-?\d+(\.\d+)?$` (first regex in `_num`). -/
def wholeMatch (l : List Char) : Bool :=
  match l with
  | '-' :: t => wholeCore t
  | _ => wholeCore l

/-- Match `[.,]\d+` at the head of the list, returning the separator and the
maximal digit run. -/
def sepNum (u : List Char) : Option (Char × List Char) :=
  match u with
  | [] => none
  | s :: rest =>
    if s = '.' || s = ',' then
      let ds := rest.takeWhile Char.isDigit
      if ds.isEmpty then none else some (s, ds)
    else none

/-- Backtracking for `[\d\s]*[.,]\d+` after the leading digit: try the longest
prefix length first (the greedy `[\d\s]*`), shrinking until `[.,]\d+` matches. -/
def alt1Back (t : List Char) : Nat → Option (List Char)
  | 0 => (sepNum t).map (fun p => p.1 :: p.2)
  | j + 1 =>
    match sepNum (t.drop (j + 1)) with
    | some p => some (t.take (j + 1) ++ p.1 :: p.2)
    | none => alt1Back t j

/-- `re.search(r"(\d[\d\s]*[.,]\d+|\d+)", x)` (second regex in `_num`): the
leftmost match starts at the first digit; there the first alternative is
preferred, falling back to the maximal digit run. -/
def searchNum : List Char → Option (List Char)
  | [] => none
  | c :: t =>
    if c.isDigit then
      match alt1Back t ((t.takeWhile (fun d => d.isDigit || isPyWs d)).length) with
      | some m => some (c :: m)
      | none => some (c :: t.takeWhile Char.isDigit)
    else searchNum t

/-- Postprocessing of the matched group:
`m2.group(1).replace(" ", "").replace(",", ".")`. -/
def numPost (l : List Char) : List Char :=
  (l.filter (fun c => !(c = ' '))).map (fun c => if c = ',' then '.' else c)

/-- The natural number denoted by a list of decimal digit characters. -/
def natOfDigits (l : List Char) : Nat :=
  l.foldl (fun a c => 10 * a + (c.toNat - 48)) 0

/-- Exact rational addition, written through `mkRat` so that it evaluates by
kernel reduction; `addQ_eq_add` below shows it is ordinary `ℚ` addition. -/
def addQ (a b : ℚ) : ℚ := mkRat (a.num * b.den + b.num * a.den) (a.den * b.den)

/-- Exact division of a rational by a natural number, written through `mkRat`;
`divNatQ_eq_div` below shows it is ordinary division. -/
def divNatQ (q : ℚ) (n : Nat) : ℚ := mkRat q.num (q.den * n)

/-- Multiplication by 100, written through `mkRat`; `mul100Q_eq_mul` below
shows it is ordinary multiplication. -/
def mul100Q (q : ℚ) : ℚ := mkRat (q.num * 100) q.den

/-- Python `sum(...)` over rationals: a left fold of addition starting at 0. -/
def sumQ (l : List ℚ) : ℚ := l.foldl addQ 0

/-- Python `float()` on an unsigned decimal literal `digits[.digits]`,
`.digits` or `digits.` (value `ip + fd / 10^|fd|`, assembled through `mkRat`);
`none` on anything else (ValueError). -/
def floatUnsigned (t : List Char) : Option ℚ :=
  let ip := t.takeWhile Char.isDigit
  let rest := t.drop ip.length
  match rest with
  | [] => if ip.isEmpty then none else some (natOfDigits ip : ℚ)
  | '.' :: fr =>
    let fd := fr.takeWhile Char.isDigit
    if !(fr.drop fd.length).isEmpty then none
    else if ip.isEmpty && fd.isEmpty then none
    else some (mkRat (natOfDigits ip * 10 ^ fd.length + natOfDigits fd) (10 ^ fd.length))
  | _ => none

/-- Python `float(x)` on a string: strip whitespace, optional sign, then an
unsigned decimal literal (exponent forms do not occur in this program's data). -/
def pyFloat (l : List Char) : Option ℚ :=
  match pyStrip l with
  | '-' :: t => (floatUnsigned t).map (fun q => -q)
  | '+' :: t => floatUnsigned t
  | t => floatUnsigned t

/-- `_num` from `build_rates.py`, over the character list of the input. -/
def numCore (l : List Char) : Option ℚ :=
  if l.isEmpty then none
  else
    let x := numPre l
    if wholeMatch x then pyFloat x
    else
      match searchNum x with
      | none => none
      | some g => pyFloat (numPost g)

/-- The numeric normaliser `_num`. -/
def _num (s : String) : Option ℚ := numCore s.data

/-- The dot-decimal value `<ip>.<fr>` written with digit lists. -/
def decVal (ip fr : List Char) : ℚ :=
  (natOfDigits ip : ℚ) + (natOfDigits fr : ℚ) / 10 ^ fr.length

/-- Python `str.upper()` (ASCII uppercasing suffices for the compared codes). -/
def upper (s : String) : String := ⟨s.data.map Char.toUpper⟩

/-- `CCYS`, the global currency allow-list. -/
def CCYSlist : List String := ["USD", "EUR", "RUB", "GBP", "JPY", "CHF", "TRY", "CNY", "KZT"]

/-- The major currencies, in the output order used by the adapters. -/
def MAJORS : List String := ["USD", "EUR", "RUB"]

/-- One currency's quoted prices (the `Rate` dataclass). -/
structure Rate where
  ccy : String
  buy : Option ℚ
  sell : Option ℚ
deriving DecidableEq

/-- One bank's result for the run (the `BankRates` dataclass). -/
structure BankRates where
  bank : String
  date : String
  rates : List Rate
  source_url : String
deriving DecidableEq

/-- The shared per-row logic of the adapters: find the first cell whose
uppercase text is in `ccys`; collect the cells that parse with `_num`; if at
least two parsed, build a `Rate` from the last two (`nums[-2], nums[-1]`,
Hamkorbank) or the first two (`nums[0], nums[1]`, all other adapters). -/
def scanRow (ccys : List String) (lastTwo : Bool) (cells : List String) : Option Rate :=
  match cells.find? (fun c => ccys.contains (upper c)) with
  | none => none
  | some c0 =>
    let nums := cells.filterMap _num
    if 2 ≤ nums.length then
      if lastTwo then
        some ⟨upper c0, some (nums.getD (nums.length - 2) 0), some (nums.getD (nums.length - 1) 0)⟩
      else
        some ⟨upper c0, some (nums.getD 0 0), some (nums.getD 1 0)⟩
    else none

/-- Scan all rows of a page; rows without a currency cell or with fewer than
two numeric cells contribute nothing (`continue`). -/
def scanRates (ccys : List String) (lastTwo : Bool) (rows : List (List String)) : List Rate :=
  rows.filterMap (scanRow ccys lastTwo)

/-- Hamkorbank's row scan: full `CCYS` allow-list, last two numbers. -/
def hamkorScanRates (rows : List (List String)) : List Rate :=
  scanRates CCYSlist true rows

/-- Kapitalbank's row scan: `{USD, EUR, RUB}`, first two numbers. -/
def kapScanRates (rows : List (List String)) : List Rate :=
  scanRates MAJORS false rows

/-- The row scan shared by Agrobank, Ipak Yuli Bank and TBC Bank:
`{USD, EUR, RUB}`, first two numbers. -/
def majorScanRates (rows : List (List String)) : List Rate :=
  scanRates MAJORS false rows

/-- Python dict insertion: replace in place if the key exists, else append. -/
def dictInsert {α : Type} : List (String × α) → String → α → List (String × α)
  | [], k, v => [(k, v)]
  | (k', v') :: t, k, v =>
    if k' = k then (k', v) :: t else (k', v') :: dictInsert t k v

/-- Python dict lookup. -/
def dictLookup {α : Type} : List (String × α) → String → Option α
  | [], _ => none
  | (k', v) :: t, k => if k' = k then some v else dictLookup t k

/-- `dedup = {r.ccy: r for r in rates}`: a dict built in scan order, so a later
rate for the same currency overwrites an earlier one. -/
def pyDict (rates : List Rate) : List (String × Rate) :=
  rates.foldl (fun d r => dictInsert d r.ccy r) []

/-- `major = [dedup[c] for c in ("USD","EUR","RUB") if c in dedup]`. -/
def majorPick (rates : List Rate) : List Rate :=
  MAJORS.filterMap (fun c => dictLookup (pyDict rates) c)

/-- Hamkorbank's page processing: scan, deduplicate, narrow to the majors;
`none` when the rate list (or the major list) is empty, which sends the URL
loop to the next candidate. -/
def hamkorProcess (rows : List (List String)) : Option (List Rate) :=
  let rates := hamkorScanRates rows
  if rates.isEmpty then none
  else
    let major := majorPick rates
    if major.isEmpty then none else some major

/-- The page processing shared by Agrobank, Ipak Yuli Bank and TBC Bank
(identical code in the three adapters). -/
def majorProcess (rows : List (List String)) : Option (List Rate) :=
  let rates := majorScanRates rows
  if rates.isEmpty then none
  else
    let major := majorPick rates
    if major.isEmpty then none else some major

/-- `bag.setdefault(ccy, []).append(rate)`: append to the group of an existing
key, else add a new group at the end. -/
def groupAdd : List (String × List Rate) → String → Rate → List (String × List Rate)
  | [], k, r => [(k, [r])]
  | (k', l) :: t, k, r =>
    if k' = k then (k', l ++ [r]) :: t else (k', l) :: groupAdd t k r

/-- Kapitalbank's `bag`: rates grouped by currency in first-occurrence order. -/
def kapGroups (rates : List Rate) : List (String × List Rate) :=
  rates.foldl (fun g r => groupAdd g r.ccy r) []

/-- Round half to even to an integer (Python `round` tie behaviour), computed
on the numerator and denominator: `f = ⌊q⌋`, and the fractional part is
compared with 1/2 by comparing `2 * (q.num - f * q.den)` with `q.den`. -/
def rhe (q : ℚ) : ℤ :=
  let f := Int.fdiv q.num q.den
  let n2 := 2 * (q.num - f * q.den)
  if n2 < (q.den : ℤ) then f
  else if (q.den : ℤ) < n2 then f + 1
  else if f % 2 = 0 then f else f + 1

/-- Python `round(x, 2)`: round `100 x` half to even, divide by 100. -/
def round2 (q : ℚ) : ℚ := mkRat (rhe (mul100Q q)) 100

/-- Kapitalbank's per-currency averaging: buy and sell are each summed over the
group and divided by the group size, then rounded to 2 decimal places.
(The group is never empty, so the division is by a positive count.) -/
def kapAvg (c : String) (arr : List Rate) : Rate :=
  ⟨c, some (round2 (divNatQ (sumQ (arr.filterMap Rate.buy)) arr.length)),
      some (round2 (divNatQ (sumQ (arr.filterMap Rate.sell)) arr.length))⟩

/-- Kapitalbank's `out` list: one averaged rate per group, in group order. -/
def kapRawOut (rows : List (List String)) : List Rate :=
  (kapGroups (kapScanRates rows)).map (fun p => kapAvg p.1 p.2)

/-- Executable lexicographic strict order on character lists (Python string
comparison); `lexLt_iff` below identifies it with the `List Char` order. -/
def lexLt : List Char → List Char → Bool
  | [], [] => false
  | [], _ :: _ => true
  | _ :: _, [] => false
  | a :: as, b :: bs => if a < b then true else if b < a then false else lexLt as bs

/-- Executable string comparison; `strLe_iff` below identifies it with `≤`. -/
def strLe (a b : String) : Bool := !lexLt b.data a.data

theorem lexLt_iff (a b : List Char) : lexLt a b = true ↔ a < b := by
  induction a generalizing b with
  | nil =>
    cases b with
    | nil =>
      rw [lexLt]
      constructor
      · intro h; exact absurd h (by decide)
      · intro h; cases h
    | cons y ys =>
      rw [lexLt]
      constructor
      · intro _; exact List.Lex.nil
      · intro _; rfl
  | cons x xs ih =>
    cases b with
    | nil =>
      rw [lexLt]
      constructor
      · intro h; exact absurd h (by decide)
      · intro h; cases h
    | cons y ys =>
      rw [lexLt]
      by_cases hxy : x < y
      · rw [if_pos hxy]
        constructor
        · intro _; exact List.Lex.rel hxy
        · intro _; rfl
      · by_cases hyx : y < x
        · rw [if_neg hxy, if_pos hyx]
          constructor
          · intro h; exact absurd h (by decide)
          · intro h
            cases h with
            | cons h => exact absurd hyx (lt_irrefl x)
            | rel h => exact absurd h hxy
        · have hq : x = y := le_antisymm (not_lt.mp hyx) (not_lt.mp hxy)
          subst hq
          rw [if_neg hxy, if_neg hyx, ih]
          constructor
          · intro h; exact List.Lex.cons h
          · intro h
            cases h with
            | cons h => exact h
            | rel h => exact absurd h hxy

theorem strLe_iff (a b : String) : strLe a b = true ↔ a ≤ b := by
  have h : strLe a b = true ↔ ¬ lexLt b.data a.data = true := by
    rw [strLe]
    cases lexLt b.data a.data with
    | false => simp
    | true => simp
  rw [h, lexLt_iff]
  have h2 : (b.data < a.data) ↔ b < a := Iff.symm String.lt_iff_toList_lt
  rw [h2]
  exact not_lt

/-- The ordering key of `sorted(out, key=lambda r: r.ccy)`. -/
def ccyLE (a b : Rate) : Prop := a.ccy ≤ b.ccy

instance : DecidableRel ccyLE :=
  fun a b => decidable_of_iff (strLe a.ccy b.ccy = true) (strLe_iff a.ccy b.ccy)

instance : IsTotal Rate ccyLE := ⟨fun a b => le_total a.ccy b.ccy⟩

instance : IsTrans Rate ccyLE := ⟨fun _ _ _ h h' => le_trans h h'⟩

/-- `sorted(out, key=lambda r: r.ccy)` (a stable sort; the keys are distinct,
so any stable sort by the key gives the same list). -/
def kapSortedOut (rows : List (List String)) : List Rate :=
  (kapRawOut rows).insertionSort ccyLE

-- Candidate URL lists, in the priority order of the source.

def hamkorUrls : List String :=
  ["https://hamkorbank.uz/ru/exchange-rate/",
   "https://hamkorbank.uz/en/exchange-rate/"]

def kapitalUrls : List String :=
  ["https://www.kapitalbank.uz/ru/services/exchange-rates-new/",
   "https://www.kapitalbank.uz/ru/services/exchange-rates/",
   "https://www.kapitalbank.uz/en/services/exchange-rates-new/",
   "https://www.kapitalbank.uz/services/exchange-rates-new/"]

def agroUrls : List String :=
  ["https://agrobank.uz/ru/person",
   "https://agrobank.uz/ru/individuals",
   "https://agrobank.uz/en/person"]

def ipakUrls : List String :=
  ["https://ipakyulibank.uz/ru",
   "https://ipakyulibank.uz/ru/exchange-rates",
   "https://ipakyulibank.uz/ru/individuals/exchange-rates",
   "https://ipakyulibank.uz/en"]

def tbcUrls : List String :=
  ["https://tbcbank.uz/ru",
   "https://tbcbank.uz/en"]

/-- The URL loop shared by the four non-Kapitalbank adapters: try each
candidate; on a fetch exception, or when the page yields nothing, continue
with the next; return an empty-rated result tagged with the first candidate
when the list is exhausted. -/
def tryUrls (bank today firstUrl : String)
    (proc : List (List String) → Option (List Rate))
    (fetch : String → Except String (List (List String))) :
    List String → BankRates
  | [] => ⟨bank, today, [], firstUrl⟩
  | u :: rest =>
    match fetch u with
    | .error _ => tryUrls bank today firstUrl proc fetch rest
    | .ok page =>
      match proc page with
      | some rs => ⟨bank, today, rs, u⟩
      | none => tryUrls bank today firstUrl proc fetch rest

/-- The `hamkorbank` adapter. -/
def hamkorbankRun (today : String) (fetch : String → Except String (List (List String))) :
    BankRates :=
  tryUrls "Hamkorbank" today (hamkorUrls.headD "") hamkorProcess fetch hamkorUrls

/-- The `agrobank` adapter. -/
def agrobankRun (today : String) (fetch : String → Except String (List (List String))) :
    BankRates :=
  tryUrls "Agrobank" today (agroUrls.headD "") majorProcess fetch agroUrls

/-- The `ipakyulibank` adapter. -/
def ipakyulibankRun (today : String) (fetch : String → Except String (List (List String))) :
    BankRates :=
  tryUrls "Ipak Yuli Bank" today (ipakUrls.headD "") majorProcess fetch ipakUrls

/-- The `tbc_bank_uz` adapter. -/
def tbcBankUzRun (today : String) (fetch : String → Except String (List (List String))) :
    BankRates :=
  tryUrls "TBC Bank Uzbekistan" today (tbcUrls.headD "") majorProcess fetch tbcUrls

/-- Kapitalbank's URL loop: `last` holds the most recent fetch exception; when
the candidates are exhausted, `if last: raise last` re-raises it, and only
otherwise is the empty-rated result returned. -/
def kapLoop (today : String) (fetch : String → Except String (List (List String))) :
    List String → Option String → Except String BankRates
  | [], last =>
    match last with
    | some e => .error e
    | none => .ok ⟨"Kapitalbank", today, [], kapitalUrls.headD ""⟩
  | u :: rest, last =>
    match fetch u with
    | .error e => kapLoop today fetch rest (some e)
    | .ok page =>
      if (kapRawOut page).isEmpty then kapLoop today fetch rest last
      else .ok ⟨"Kapitalbank", today, kapSortedOut page, u⟩

/-- The `kapitalbank` adapter; unlike the others it can raise. -/
def kapitalbankRun (today : String) (fetch : String → Except String (List (List String))) :
    Except String BankRates :=
  kapLoop today fetch kapitalUrls none

/-- One element of the CBU JSON archive, with its optional `Ccy` and `Rate`
fields (`none` models an absent key). -/
structure CbuItem where
  Ccy : Option String
  Rate : Option String
deriving DecidableEq

/-- `{x["Ccy"].upper(): float(x["Rate"]) for x in data if x.get("Ccy")}`:
items with a missing or empty `Ccy` are skipped; a missing `Rate` (KeyError)
or unparsable rate (ValueError) aborts the whole comprehension, which the
surrounding `try` turns into "no result". -/
def cbuDict : List CbuItem → List (String × ℚ) → Option (List (String × ℚ))
  | [], d => some d
  | x :: t, d =>
    match x.Ccy with
    | none => cbuDict t d
    | some c =>
      if c = "" then cbuDict t d
      else
        match x.Rate with
        | none => none
        | some rs =>
          match pyFloat rs.data with
          | none => none
          | some v => cbuDict t (dictInsert d (upper c) v)

/-- The CBU archive URL for the run date. -/
def cbuUrl (today : String) : String :=
  "https://cbu.uz/ru/arkhiv-kursov-valyut/json/all/" ++ today ++ "/"

/-- The `wanted` list: for each major currency present in the reference data,
a rate with buy and sell both equal to the reference value. -/
def cbuWanted (d : List (String × ℚ)) : List Rate :=
  MAJORS.filterMap (fun c => (dictLookup d c).map (fun v => (⟨c, some v, some v⟩ : Rate)))

/-- The `cbu_reference` fallback: every failure path (fetch exception, bad
data, empty `wanted`) yields `none`; nothing escapes the `try`. -/
def cbu_reference (today : String) (res : Except String (List CbuItem)) :
    Option BankRates :=
  match res with
  | .error _ => none
  | .ok data =>
    match cbuDict data [] with
    | none => none
    | some d =>
      let w := cbuWanted d
      if w.isEmpty then none else some ⟨"CBU (справочно)", today, w, cbuUrl today⟩

/-- `ADAPTERS`, by function name, in source order. -/
def ADAPTER_NAMES : List String :=
  ["hamkorbank", "agrobank", "kapitalbank", "ipakyulibank", "tbc_bank_uz"]

/-- Python `str.isalpha()` (ASCII letters suffice for the compared tokens). -/
def pyIsAlpha (s : String) : Bool := !s.isEmpty && s.data.all Char.isAlpha

/-- `ONLY = next((arg for arg in sys.argv[1:] if arg.isalpha() and arg != "--debug"), None)`. -/
def parseOnly (args : List String) : Option String :=
  args.find? (fun a => pyIsAlpha a && !(a == "--debug"))

/-- `used = [fn for fn in ADAPTERS if (ONLY is None or fn.__name__ == ONLY)]`,
by adapter name. -/
def selectNames (only : Option String) : List String :=
  match only with
  | none => ADAPTER_NAMES
  | some t => ADAPTER_NAMES.filter (fun n => n == t)

/-- The orchestrator's collection loop: an adapter that raised is caught and
contributes nothing; a returned result is kept only if its rate list is
non-empty. -/
def collectOut (results : List (Except String BankRates)) : List BankRates :=
  results.filterMap (fun e =>
    match e with
    | .error _ => none
    | .ok br => if br.rates.isEmpty then none else some br)

/-- The orchestrator's output: the collected results, or, exactly when that
collection is empty, whatever the reference fallback yields (possibly nothing,
leaving the output an empty array). -/
def mainOut (results : List (Except String BankRates)) (ref : Option BankRates) :
    List BankRates :=
  let out := collectOut results
  if out.isEmpty then
    match ref with
    | some br => [br]
    | none => []
  else out

/-- The five adapter invocations of a full run (no name filter), in `ADAPTERS`
order; only Kapitalbank can contribute an exception. -/
def runResults (today : String) (fetch : String → Except String (List (List String))) :
    List (Except String BankRates) :=
  [.ok (hamkorbankRun today fetch),
   .ok (agrobankRun today fetch),
   kapitalbankRun today fetch,
   .ok (ipakyulibankRun today fetch),
   .ok (tbcBankUzRun today fetch)]

/-- A full run: all five adapters, then the fallback if nothing was collected;
the result is the list serialised to `public/rates.json`. -/
def runAll (today : String) (fetch : String → Except String (List (List String)))
    (cbuRes : Except String (List CbuItem)) : List BankRates :=
  mainOut (runResults today fetch) (cbu_reference today cbuRes)

instance {ε α : Type} [DecidableEq ε] [DecidableEq α] : DecidableEq (Except ε α) := fun a b =>
  match a, b with
  | .error e, .error e' => decidable_of_iff (e = e') (by simp)
  | .ok v, .ok v' => decidable_of_iff (v = v') (by simp)
  | .error _, .ok _ => isFalse (by simp)
  | .ok _, .error _ => isFalse (by simp)

/-- `addQ` is ordinary rational addition. -/
theorem addQ_eq_add (a b : ℚ) : addQ a b = a + b := by
  have ha : (a.den : ℚ) ≠ 0 := Nat.cast_ne_zero.mpr a.den_nz
  have hb : (b.den : ℚ) ≠ 0 := Nat.cast_ne_zero.mpr b.den_nz
  have h1 : (a.num : ℚ) = a * a.den := (div_eq_iff ha).mp (Rat.num_div_den a)
  have h2 : (b.num : ℚ) = b * b.den := (div_eq_iff hb).mp (Rat.num_div_den b)
  rw [addQ, Rat.mkRat_eq_div]
  push_cast
  field_simp
  rw [h1, h2]
  ring

/-- `sumQ` is ordinary list summation. -/
theorem sumQ_eq_sum (l : List ℚ) : sumQ l = l.sum := by
  have key : ∀ (l : List ℚ) (q : ℚ), l.foldl addQ q = q + l.sum := by
    intro l
    induction l with
    | nil => simp
    | cons x t ih =>
      intro q
      simp only [List.foldl_cons, List.sum_cons, ih, addQ_eq_add]
      ring
  simpa using key l 0

/-- `divNatQ` is ordinary division by the (cast) natural number. -/
theorem divNatQ_eq_div (q : ℚ) (n : Nat) (hn : n ≠ 0) : divNatQ q n = q / n := by
  have hd : (q.den : ℚ) ≠ 0 := Nat.cast_ne_zero.mpr q.den_nz
  have hx : (n : ℚ) ≠ 0 := Nat.cast_ne_zero.mpr hn
  have h1 : (q.num : ℚ) = q * q.den := (div_eq_iff hd).mp (Rat.num_div_den q)
  rw [divNatQ, Rat.mkRat_eq_div]
  push_cast
  field_simp
  rw [h1]
  ring

/-- `mul100Q` is ordinary multiplication by 100. -/
theorem mul100Q_eq_mul (q : ℚ) : mul100Q q = q * 100 := by
  have hd : (q.den : ℚ) ≠ 0 := Nat.cast_ne_zero.mpr q.den_nz
  have h1 : (q.num : ℚ) = q * q.den := (div_eq_iff hd).mp (Rat.num_div_den q)
  rw [mul100Q, Rat.mkRat_eq_div]
  push_cast
  field_simp
  rw [h1]
  ring

/-! ### Dictionary lemmas: Python dict comprehension is last-wins -/

theorem dictLookup_dictInsert {α : Type} (d : List (String × α)) (k : String) (v : α)
    (c : String) :
    dictLookup (dictInsert d k v) c = if k = c then some v else dictLookup d c := by
  induction d with
  | nil =>
    by_cases h : k = c <;> simp [dictInsert, dictLookup, h]
  | cons p t ih =>
    obtain ⟨k', v'⟩ := p
    by_cases h1 : k' = k
    · subst h1
      by_cases h2 : k' = c <;> simp [dictInsert, dictLookup, h2]
    · rw [dictInsert, if_neg h1]
      by_cases h2 : k' = c
      · subst h2
        have hkc : ¬ k = k' := fun hx => h1 hx.symm
        simp [dictLookup, if_neg hkc]
      · simp [dictLookup, h2, ih]

theorem dictLookup_mem_pair {α : Type} {g : List (String × α)} {c : String} {v : α}
    (h : dictLookup g c = some v) : (c, v) ∈ g := by
  induction g with
  | nil => simp [dictLookup] at h
  | cons p t ih =>
    obtain ⟨k', v'⟩ := p
    rw [dictLookup] at h
    by_cases hk : k' = c
    · subst hk
      rw [if_pos rfl] at h
      exact Option.some_injective _ h ▸ List.mem_cons_self _ _
    · rw [if_neg hk] at h
      exact List.mem_cons_of_mem _ (ih h)

theorem pyDict_lookup_general (rs : List Rate) :
    ∀ (d : List (String × Rate)) (c : String),
      dictLookup (rs.foldl (fun d r => dictInsert d r.ccy r) d) c =
        (rs.reverse.find? (fun r => decide (r.ccy = c))).or (dictLookup d c) := by
  induction rs with
  | nil => intro d c; simp
  | cons r t ih =>
    intro d c
    rw [List.foldl_cons, ih, List.reverse_cons, List.find?_append]
    cases hf : t.reverse.find? (fun r => decide (r.ccy = c)) with
    | some x => simp
    | none =>
      simp only [Option.none_or]
      rw [dictLookup_dictInsert]
      by_cases h : r.ccy = c <;> simp [List.find?, h]

/-- The dict built by `{r.ccy: r for r in rates}` answers each key with the
last rate of that currency in `rates`. -/
theorem pyDict_lookup (rates : List Rate) (c : String) :
    dictLookup (pyDict rates) c = rates.reverse.find? (fun r => decide (r.ccy = c)) := by
  rw [pyDict, pyDict_lookup_general]
  simp [dictLookup]

theorem pyDict_lookup_mem {rates : List Rate} {r : Rate} {c : String}
    (h : dictLookup (pyDict rates) c = some r) : r ∈ rates ∧ r.ccy = c := by
  rw [pyDict_lookup] at h
  have hp := List.find?_some h
  exact ⟨List.mem_reverse.mp (List.mem_of_find?_eq_some h), of_decide_eq_true hp⟩

theorem pyDict_lookup_isSome (rates : List Rate) (c : String) :
    (dictLookup (pyDict rates) c).isSome ↔ ∃ r ∈ rates, r.ccy = c := by
  rw [pyDict_lookup]
  rw [List.find?_isSome]
  constructor
  · rintro ⟨x, hx, hp⟩
    exact ⟨x, List.mem_reverse.mp hx, of_decide_eq_true hp⟩
  · rintro ⟨x, hx, hp⟩
    exact ⟨x, List.mem_reverse.mpr hx, decide_eq_true hp⟩

/-! ### Row-scan lemmas -/

theorem scanRow_shape {ccys : List String} {lastTwo : Bool} {cells : List String} {r : Rate}
    (h : scanRow ccys lastTwo cells = some r) :
    r.ccy ∈ ccys ∧ (∃ q, r.buy = some q) ∧ ∃ q, r.sell = some q := by
  rw [scanRow] at h
  cases hf : cells.find? (fun c => ccys.contains (upper c)) with
  | none => rw [hf] at h; exact absurd h (by simp)
  | some c0 =>
    rw [hf] at h
    have hc : ccys.contains (upper c0) = true := by
      have hp := List.find?_some hf
      exact hp
    have hmem : upper c0 ∈ ccys := List.mem_of_elem_eq_true hc
    dsimp only at h
    by_cases h2 : 2 ≤ (cells.filterMap _num).length
    · rw [if_pos h2] at h
      cases lastTwo with
      | true =>
        rw [if_pos rfl] at h
        cases h
        exact ⟨hmem, ⟨_, rfl⟩, ⟨_, rfl⟩⟩
      | false =>
        rw [if_neg (by simp)] at h
        cases h
        exact ⟨hmem, ⟨_, rfl⟩, ⟨_, rfl⟩⟩
    · rw [if_neg h2] at h
      exact absurd h (by simp)

theorem scanRates_shape {ccys : List String} {lastTwo : Bool} {rows : List (List String)}
    {r : Rate} (h : r ∈ scanRates ccys lastTwo rows) :
    r.ccy ∈ ccys ∧ (∃ q, r.buy = some q) ∧ ∃ q, r.sell = some q := by
  rw [scanRates] at h
  obtain ⟨cells, _, hrow⟩ := List.mem_filterMap.mp h
  exact scanRow_shape hrow

theorem majorPick_mem {rates : List Rate} {r : Rate} (h : r ∈ majorPick rates) :
    r ∈ rates := by
  rw [majorPick] at h
  obtain ⟨c, _, hc⟩ := List.mem_filterMap.mp h
  exact (pyDict_lookup_mem hc).1

theorem hamkorProcess_some {rows : List (List String)} {rs : List Rate}
    (h : hamkorProcess rows = some rs) : rs = majorPick (hamkorScanRates rows) := by
  rw [hamkorProcess] at h
  by_cases h1 : (hamkorScanRates rows).isEmpty
  · rw [if_pos h1] at h; exact absurd h (by simp)
  · rw [if_neg h1] at h
    by_cases h2 : (majorPick (hamkorScanRates rows)).isEmpty
    · rw [if_pos h2] at h; exact absurd h (by simp)
    · rw [if_neg h2] at h
      exact (Option.some_injective _ h).symm

theorem majorProcess_some {rows : List (List String)} {rs : List Rate}
    (h : majorProcess rows = some rs) : rs = majorPick (majorScanRates rows) := by
  rw [majorProcess] at h
  by_cases h1 : (majorScanRates rows).isEmpty
  · rw [if_pos h1] at h; exact absurd h (by simp)
  · rw [if_neg h1] at h
    by_cases h2 : (majorPick (majorScanRates rows)).isEmpty
    · rw [if_pos h2] at h; exact absurd h (by simp)
    · rw [if_neg h2] at h
      exact (Option.some_injective _ h).symm

/-! ### URL-loop lemmas -/

theorem tryUrls_mem_rates {bank today firstUrl : String}
    {proc : List (List String) → Option (List Rate)}
    {fetch : String → Except String (List (List String))} :
    ∀ {urls : List String} {r : Rate},
      r ∈ (tryUrls bank today firstUrl proc fetch urls).rates →
      ∃ page rs, proc page = some rs ∧ r ∈ rs := by
  intro urls
  induction urls with
  | nil =>
    intro r h
    rw [tryUrls] at h
    exact absurd h (by simp)
  | cons u rest ih =>
    intro r h
    rw [tryUrls] at h
    cases hf : fetch u with
    | error e => rw [hf] at h; exact ih h
    | ok page =>
      rw [hf] at h
      dsimp only at h
      cases hp : proc page with
      | some rs =>
        rw [hp] at h
        exact ⟨page, rs, hp, h⟩
      | none => rw [hp] at h; exact ih h

theorem kapLoop_ok_rates {today : String}
    {fetch : String → Except String (List (List String))} :
    ∀ {urls : List String} {last : Option String} {br : BankRates},
      kapLoop today fetch urls last = Except.ok br →
      br.rates = [] ∨ ∃ page, br.rates = kapSortedOut page := by
  intro urls
  induction urls with
  | nil =>
    intro last br h
    rw [kapLoop.eq_def] at h
    dsimp only at h
    cases last with
    | some e => exact absurd h (by simp)
    | none =>
      cases h
      exact Or.inl rfl
  | cons u rest ih =>
    intro last br h
    rw [kapLoop.eq_def] at h
    dsimp only at h
    cases hf : fetch u with
    | error e => rw [hf] at h; exact ih h
    | ok page =>
      rw [hf] at h
      dsimp only at h
      by_cases he : (kapRawOut page).isEmpty
      · rw [if_pos he] at h; exact ih h
      · rw [if_neg he] at h
        cases h
        exact Or.inr ⟨page, rfl⟩

/-! ### Grouping lemmas (Kapitalbank `bag`) -/

theorem dictLookup_groupAdd (g : List (String × List Rate)) (k : String) (v : Rate)
    (c : String) :
    dictLookup (groupAdd g k v) c =
      if k = c then some (((dictLookup g k).getD []) ++ [v]) else dictLookup g c := by
  induction g with
  | nil =>
    by_cases h : k = c <;> simp [groupAdd, dictLookup, h]
  | cons p t ih =>
    obtain ⟨k', l⟩ := p
    by_cases h1 : k' = k
    · subst h1
      by_cases h2 : k' = c <;> simp [groupAdd, dictLookup, h2]
    · rw [groupAdd, if_neg h1]
      by_cases h2 : k' = c
      · subst h2
        have hkc : ¬ k = k' := fun hx => h1 hx.symm
        simp [dictLookup, if_neg hkc]
      · by_cases h3 : k = c
        · subst h3
          have hkk : ¬ k = k' := fun hx => h1 (Eq.symm hx)
          simp [dictLookup, h2, ih, if_neg hkk, h1]
        · simp [dictLookup, h2, ih, h3]

theorem kapGroups_lookup_general (rs : List Rate) :
    ∀ (g : List (String × List Rate)) (c : String),
      dictLookup (rs.foldl (fun g r => groupAdd g r.ccy r) g) c =
        match dictLookup g c, rs.filter (fun r => r.ccy == c) with
        | some l, fs => some (l ++ fs)
        | none, [] => none
        | none, fs => some fs := by
  induction rs with
  | nil =>
    intro g c
    cases hg : dictLookup g c <;> simp [hg]
  | cons r t ih =>
    intro g c
    rw [List.foldl_cons, ih, dictLookup_groupAdd]
    by_cases hc : r.ccy = c
    · subst hc
      rw [if_pos rfl]
      have hfil : (r :: t).filter (fun x => x.ccy == r.ccy) =
          r :: t.filter (fun x => x.ccy == r.ccy) := by
        rw [List.filter_cons, if_pos (by simp)]
      rw [hfil]
      cases hg : dictLookup g r.ccy with
      | some l => simp
      | none => simp
    · rw [if_neg hc]
      have hfil : (r :: t).filter (fun x => x.ccy == c) = t.filter (fun x => x.ccy == c) := by
        rw [List.filter_cons, if_neg (by simp [hc])]
      rw [hfil]

/-- Kapitalbank's `bag` maps each currency to exactly the scanned rates of
that currency, in scan order. -/
theorem kapGroups_lookup (rates : List Rate) (c : String) :
    dictLookup (kapGroups rates) c =
      match rates.filter (fun r => r.ccy == c) with
      | [] => none
      | fs => some fs := by
  rw [kapGroups, kapGroups_lookup_general]
  cases hf : rates.filter (fun r => r.ccy == c) <;> simp [dictLookup]

/-- The key list of `groupAdd`: unchanged for a known key, extended otherwise. -/
theorem groupAdd_keys (g : List (String × List Rate)) (k : String) (v : Rate) :
    (groupAdd g k v).map Prod.fst =
      if k ∈ g.map Prod.fst then g.map Prod.fst else g.map Prod.fst ++ [k] := by
  induction g with
  | nil => simp [groupAdd]
  | cons p t ih =>
    obtain ⟨k', l⟩ := p
    by_cases h1 : k' = k
    · subst h1
      simp [groupAdd]
    · rw [groupAdd, if_neg h1]
      by_cases h2 : k ∈ t.map Prod.fst
      · simp only [List.map_cons, ih, if_pos h2]
        rw [if_pos (List.mem_cons_of_mem _ h2)]
      · simp only [List.map_cons, ih, if_neg h2]
        have hnk : ¬ k ∈ k' :: t.map Prod.fst := by
          intro hmem
          rcases List.mem_cons.mp hmem with h | h
          · exact h1 h.symm
          · exact h2 h
        rw [if_neg hnk]
        simp

theorem kapGroups_keys_nodup_general (rates : List Rate) :
    ∀ (g : List (String × List Rate)), (g.map Prod.fst).Nodup →
      ((rates.foldl (fun g r => groupAdd g r.ccy r) g).map Prod.fst).Nodup := by
  induction rates with
  | nil => intro g h; exact h
  | cons r t ih =>
    intro g h
    rw [List.foldl_cons]
    apply ih
    rw [groupAdd_keys]
    by_cases hm : r.ccy ∈ g.map Prod.fst
    · rw [if_pos hm]; exact h
    · rw [if_neg hm]
      rw [List.nodup_append]
      exact ⟨h, List.nodup_singleton _, by simpa using hm⟩

theorem kapGroups_keys_mem_general (rates : List Rate) :
    ∀ (g : List (String × List Rate)) (c : String),
      c ∈ (rates.foldl (fun g r => groupAdd g r.ccy r) g).map Prod.fst ↔
        c ∈ g.map Prod.fst ∨ ∃ r ∈ rates, r.ccy = c := by
  induction rates with
  | nil => intro g c; simp
  | cons r t ih =>
    intro g c
    rw [List.foldl_cons, ih, groupAdd_keys]
    by_cases hm : r.ccy ∈ g.map Prod.fst
    · rw [if_pos hm]
      constructor
      · rintro (h | h)
        · exact Or.inl h
        · exact Or.inr (by
            obtain ⟨x, hx, hcx⟩ := h
            exact ⟨x, List.mem_cons_of_mem _ hx, hcx⟩)
      · rintro (h | ⟨x, hx, hcx⟩)
        · exact Or.inl h
        · cases List.mem_cons.mp hx with
          | inl hxr => exact Or.inl (by rw [← hcx, hxr]; exact hm)
          | inr hxt => exact Or.inr ⟨x, hxt, hcx⟩
    · rw [if_neg hm]
      constructor
      · rintro (h | h)
        · cases List.mem_append.mp h with
          | inl hg => exact Or.inl hg
          | inr hk => exact Or.inr ⟨r, List.mem_cons_self _ _, (List.mem_singleton.mp hk).symm⟩
        · obtain ⟨x, hx, hcx⟩ := h
          exact Or.inr ⟨x, List.mem_cons_of_mem _ hx, hcx⟩
      · rintro (h | ⟨x, hx, hcx⟩)
        · exact Or.inl (List.mem_append.mpr (Or.inl h))
        · cases List.mem_cons.mp hx with
          | inl hxr =>
            exact Or.inl (List.mem_append.mpr (Or.inr (by rw [← hcx, hxr]; exact List.mem_singleton_self _)))
          | inr hxt => exact Or.inr ⟨x, hxt, hcx⟩

theorem kapGroups_keys_nodup (rates : List Rate) :
    ((kapGroups rates).map Prod.fst).Nodup :=
  kapGroups_keys_nodup_general rates [] (by simp)

theorem kapGroups_keys_mem (rates : List Rate) (c : String) :
    c ∈ (kapGroups rates).map Prod.fst ↔ ∃ r ∈ rates, r.ccy = c := by
  rw [kapGroups, kapGroups_keys_mem_general]
  simp

/-- The sorted Kapitalbank output is a permutation of the unsorted one. -/
theorem kapSortedOut_perm (rows : List (List String)) :
    List.Perm (kapSortedOut rows) (kapRawOut rows) :=
  List.perm_insertionSort ccyLE (kapRawOut rows)

/-! ### Output-restriction lemmas -/

theorem filterMap_dictLookup_map_ccy (rates : List Rate) :
    ∀ L : List String,
      ((L.filterMap (fun c => dictLookup (pyDict rates) c)).map Rate.ccy)
        = L.filter (fun c => rates.any (fun r => r.ccy == c)) := by
  intro L
  induction L with
  | nil => simp
  | cons c t ih =>
    rw [List.filterMap_cons, List.filter_cons]
    cases hl : dictLookup (pyDict rates) c with
    | some r =>
      obtain ⟨hmem, hccy⟩ := pyDict_lookup_mem hl
      have hany : rates.any (fun r => r.ccy == c) = true :=
        List.any_eq_true.mpr ⟨r, hmem, by simp [hccy]⟩
      simp only [hany, if_true, List.map_cons, ih, hccy]
    | none =>
      have hany : rates.any (fun r => r.ccy == c) = false := by
        rw [← Bool.not_eq_true]
        intro hx
        obtain ⟨r, hr, hrc⟩ := List.any_eq_true.mp hx
        have hs : (dictLookup (pyDict rates) c).isSome :=
          (pyDict_lookup_isSome rates c).mpr ⟨r, hr, by simpa using hrc⟩
        rw [hl] at hs
        simp at hs
      simp only [hany, if_false, ih, Bool.false_eq_true]

theorem majorPick_map_ccy (rates : List Rate) :
    (majorPick rates).map Rate.ccy
      = MAJORS.filter (fun c => rates.any (fun r => r.ccy == c)) :=
  filterMap_dictLookup_map_ccy rates MAJORS

theorem kapRawOut_map_ccy (rows : List (List String)) :
    (kapRawOut rows).map Rate.ccy = (kapGroups (kapScanRates rows)).map Prod.fst := by
  rw [kapRawOut, List.map_map]
  rfl

theorem kapSortedOut_sorted (rows : List (List String)) :
    (kapSortedOut rows).Pairwise ccyLE :=
  List.sorted_insertionSort ccyLE (kapRawOut rows)

theorem kapSortedOut_map_ccy_nodup (rows : List (List String)) :
    ((kapSortedOut rows).map Rate.ccy).Nodup := by
  have hperm := (kapSortedOut_perm rows).map Rate.ccy
  rw [hperm.nodup_iff, kapRawOut_map_ccy]
  exact kapGroups_keys_nodup (kapScanRates rows)

/-! ### Reference-fallback lemmas -/

theorem cbu_reference_some {today : String} {res : Except String (List CbuItem)}
    {br : BankRates} (h : cbu_reference today res = some br) :
    ∃ data d, res = Except.ok data ∧ cbuDict data [] = some d ∧ br.rates = cbuWanted d := by
  cases res with
  | error e => rw [cbu_reference] at h; exact absurd h (by simp)
  | ok data =>
    rw [cbu_reference] at h
    cases hd : cbuDict data [] with
    | none => rw [hd] at h; exact absurd h (by simp)
    | some d =>
      rw [hd] at h
      dsimp only at h
      by_cases hw : (cbuWanted d).isEmpty
      · rw [if_pos hw] at h; exact absurd h (by simp)
      · rw [if_neg hw] at h
        cases h
        exact ⟨data, d, rfl, hd, rfl⟩

theorem cbuWanted_mem {d : List (String × ℚ)} {r : Rate} (h : r ∈ cbuWanted d) :
    r.ccy ∈ MAJORS ∧ ∃ v, r.buy = some v ∧ r.sell = some v := by
  rw [cbuWanted] at h
  obtain ⟨c, hc, hmap⟩ := List.mem_filterMap.mp h
  cases hl : dictLookup d c with
  | none => rw [hl] at hmap; simp at hmap
  | some v =>
    rw [hl] at hmap
    simp only [Option.map_some'] at hmap
    cases hmap
    exact ⟨hc, v, rfl, rfl⟩

theorem cbuWanted_present {d : List (String × ℚ)} {c : String} {v : ℚ}
    (hc : c ∈ MAJORS) (hv : dictLookup d c = some v) :
    (⟨c, some v, some v⟩ : Rate) ∈ cbuWanted d := by
  rw [cbuWanted]
  exact List.mem_filterMap.mpr ⟨c, hc, by rw [hv]; rfl⟩

/-! ### Orchestrator lemmas -/

theorem collectOut_mem {results : List (Except String BankRates)} {br : BankRates}
    (h : br ∈ collectOut results) : Except.ok br ∈ results ∧ br.rates ≠ [] := by
  rw [collectOut] at h
  obtain ⟨e, he, hm⟩ := List.mem_filterMap.mp h
  cases e with
  | error s => simp at hm
  | ok br' =>
    dsimp only at hm
    by_cases hb : br'.rates.isEmpty
    · rw [if_pos hb] at hm; simp at hm
    · rw [if_neg hb] at hm
      cases hm
      exact ⟨he, by simpa using hb⟩

theorem mainOut_mem {results : List (Except String BankRates)} {ref : Option BankRates}
    {br : BankRates} (h : br ∈ mainOut results ref) :
    br ∈ collectOut results ∨ ref = some br := by
  rw [mainOut.eq_def] at h
  dsimp only at h
  by_cases he : (collectOut results).isEmpty
  · rw [if_pos he] at h
    cases ref with
    | some b =>
      right
      have : br = b := by simpa using h
      rw [this]
    | none => simp at h
  · rw [if_neg he] at h
    exact Or.inl h

theorem runResults_mem {today : String} {fetch : String → Except String (List (List String))}
    {e : Except String BankRates} (h : e ∈ runResults today fetch) :
    e = Except.ok (hamkorbankRun today fetch) ∨ e = Except.ok (agrobankRun today fetch) ∨
    e = kapitalbankRun today fetch ∨ e = Except.ok (ipakyulibankRun today fetch) ∨
    e = Except.ok (tbcBankUzRun today fetch) := by
  rw [runResults] at h
  simpa using h

/-! ### Row-pair extraction equations -/

theorem scanRow_eq_last_two {ccys : List String} {cells : List String} {c : String}
    {ns : List ℚ} (hc : cells.find? (fun x => ccys.contains (upper x)) = some c)
    (hns : cells.filterMap _num = ns) (h2 : 2 ≤ ns.length) :
    scanRow ccys true cells
      = some ⟨upper c, some (ns.getD (ns.length - 2) 0), some (ns.getD (ns.length - 1) 0)⟩ := by
  rw [scanRow, hc]
  dsimp only
  rw [hns, if_pos h2]
  rfl

theorem scanRow_eq_first_two {ccys : List String} {cells : List String} {c : String}
    {ns : List ℚ} (hc : cells.find? (fun x => ccys.contains (upper x)) = some c)
    (hns : cells.filterMap _num = ns) (h2 : 2 ≤ ns.length) :
    scanRow ccys false cells = some ⟨upper c, some (ns.getD 0 0), some (ns.getD 1 0)⟩ := by
  rw [scanRow, hc]
  dsimp only
  rw [hns, if_pos h2]
  rfl

/-- C1 counterexample: on a Kapitalbank page row whose cells parse to the
numbers 1, 2, 3, the adapter returns the rate (buy, sell) = (1, 2) — the FIRST
two parsed numbers — not (2, 3), the last two as the claim asserts for
Kapitalbank. -/
theorem c1_counterexample :
    kapitalbankRun "2026-01-01"
        (fun u => if u = "https://www.kapitalbank.uz/ru/services/exchange-rates-new/"
          then Except.ok [["USD", "1", "2", "3"]] else Except.error "e")
      = Except.ok ⟨"Kapitalbank", "2026-01-01", [⟨"USD", some 1, some 2⟩],
          "https://www.kapitalbank.uz/ru/services/exchange-rates-new/"⟩ ∧
    ([(⟨"USD", some 1, some 2⟩ : Rate)] : List Rate) ≠ [⟨"USD", some 2, some 3⟩] :=
  ⟨by decide, by decide⟩

/-- C1 (amended): in any table row with a recognised currency cell and at
least two parsed numbers, Hamkorbank's scan emits the LAST two parsed numbers
of the row as (buy, sell), while Kapitalbank's scan — like the
Agrobank/Ipak Yuli/TBC scan — emits the FIRST two parsed numbers. -/
theorem c1_amended_pair_positions (pre post : List (List String)) (cells : List String)
    (ns : List ℚ) (hns : cells.filterMap _num = ns) (h2 : 2 ≤ ns.length) :
    (∀ c, cells.find? (fun x => CCYSlist.contains (upper x)) = some c →
      hamkorScanRates (pre ++ cells :: post)
        = hamkorScanRates pre
            ++ ⟨upper c, some (ns.getD (ns.length - 2) 0), some (ns.getD (ns.length - 1) 0)⟩
            :: hamkorScanRates post) ∧
    (∀ c, cells.find? (fun x => MAJORS.contains (upper x)) = some c →
      kapScanRates (pre ++ cells :: post)
        = kapScanRates pre ++ ⟨upper c, some (ns.getD 0 0), some (ns.getD 1 0)⟩
            :: kapScanRates post ∧
      majorScanRates (pre ++ cells :: post)
        = majorScanRates pre ++ ⟨upper c, some (ns.getD 0 0), some (ns.getD 1 0)⟩
            :: majorScanRates post) := by
  constructor
  · intro c hc
    rw [hamkorScanRates, scanRates, List.filterMap_append, List.filterMap_cons,
      scanRow_eq_last_two hc hns h2]
    rfl
  · intro c hc
    constructor
    · rw [kapScanRates, scanRates, List.filterMap_append, List.filterMap_cons,
        scanRow_eq_first_two hc hns h2]
      rfl
    · rw [majorScanRates, scanRates, List.filterMap_append, List.filterMap_cons,
        scanRow_eq_first_two hc hns h2]
      rfl

/-- Witness for the amended C1 on the row `["USD", "1", "2", "3"]`. -/
theorem c1_amended_witness :
    hamkorScanRates ([] ++ ["USD", "1", "2", "3"] :: [])
      = hamkorScanRates [] ++ ⟨upper "USD", some (([1, 2, 3] : List ℚ).getD 1 0),
          some (([1, 2, 3] : List ℚ).getD 2 0)⟩ :: hamkorScanRates [] ∧
    kapScanRates ([] ++ ["USD", "1", "2", "3"] :: [])
      = kapScanRates [] ++ ⟨upper "USD", some (([1, 2, 3] : List ℚ).getD 0 0),
          some (([1, 2, 3] : List ℚ).getD 1 0)⟩ :: kapScanRates [] := by
  have h := c1_amended_pair_positions [] [] ["USD", "1", "2", "3"] [1, 2, 3]
    (by decide) (by decide)
  exact ⟨h.1 "USD" (by decide), (h.2 "USD" (by decide)).1⟩

/-- C2 counterexample: when every Kapitalbank candidate URL raises, the
adapter re-raises the last exception instead of returning an empty-rated
result tagged with the first candidate URL. -/
theorem c2_counterexample :
    kapitalbankRun "2026-01-01" (fun _ => Except.error "boom") = Except.error "boom" ∧
    kapitalbankRun "2026-01-01" (fun _ => Except.error "boom")
      ≠ Except.ok ⟨"Kapitalbank", "2026-01-01", [],
          "https://www.kapitalbank.uz/ru/services/exchange-rates-new/"⟩ :=
  ⟨by decide, by decide⟩

/-- C2 (amended): when every candidate URL raises, the Hamkorbank, Agrobank,
Ipak Yuli Bank and TBC Bank adapters return an empty-rated `BankRates` tagged
with their first candidate URL, but the Kapitalbank adapter raises the
exception of its last candidate URL. -/
theorem c2_amended_all_urls_fail (today : String)
    (fetch : String → Except String (List (List String))) (msg : String → String)
    (hh : ∀ u ∈ hamkorUrls, fetch u = Except.error (msg u))
    (ha : ∀ u ∈ agroUrls, fetch u = Except.error (msg u))
    (hi : ∀ u ∈ ipakUrls, fetch u = Except.error (msg u))
    (ht : ∀ u ∈ tbcUrls, fetch u = Except.error (msg u))
    (hk : ∀ u ∈ kapitalUrls, fetch u = Except.error (msg u)) :
    hamkorbankRun today fetch
      = ⟨"Hamkorbank", today, [], "https://hamkorbank.uz/ru/exchange-rate/"⟩ ∧
    agrobankRun today fetch = ⟨"Agrobank", today, [], "https://agrobank.uz/ru/person"⟩ ∧
    ipakyulibankRun today fetch = ⟨"Ipak Yuli Bank", today, [], "https://ipakyulibank.uz/ru"⟩ ∧
    tbcBankUzRun today fetch = ⟨"TBC Bank Uzbekistan", today, [], "https://tbcbank.uz/ru"⟩ ∧
    kapitalbankRun today fetch
      = Except.error (msg "https://www.kapitalbank.uz/services/exchange-rates-new/") := by
  refine ⟨?_, ?_, ?_, ?_, ?_⟩
  · have e1 := hh "https://hamkorbank.uz/ru/exchange-rate/" (by decide)
    have e2 := hh "https://hamkorbank.uz/en/exchange-rate/" (by decide)
    simp only [hamkorbankRun, hamkorUrls, tryUrls, e1, e2, List.headD]
  · have e1 := ha "https://agrobank.uz/ru/person" (by decide)
    have e2 := ha "https://agrobank.uz/ru/individuals" (by decide)
    have e3 := ha "https://agrobank.uz/en/person" (by decide)
    simp only [agrobankRun, agroUrls, tryUrls, e1, e2, e3, List.headD]
  · have e1 := hi "https://ipakyulibank.uz/ru" (by decide)
    have e2 := hi "https://ipakyulibank.uz/ru/exchange-rates" (by decide)
    have e3 := hi "https://ipakyulibank.uz/ru/individuals/exchange-rates" (by decide)
    have e4 := hi "https://ipakyulibank.uz/en" (by decide)
    simp only [ipakyulibankRun, ipakUrls, tryUrls, e1, e2, e3, e4, List.headD]
  · have e1 := ht "https://tbcbank.uz/ru" (by decide)
    have e2 := ht "https://tbcbank.uz/en" (by decide)
    simp only [tbcBankUzRun, tbcUrls, tryUrls, e1, e2, List.headD]
  · have e1 := hk "https://www.kapitalbank.uz/ru/services/exchange-rates-new/" (by decide)
    have e2 := hk "https://www.kapitalbank.uz/ru/services/exchange-rates/" (by decide)
    have e3 := hk "https://www.kapitalbank.uz/en/services/exchange-rates-new/" (by decide)
    have e4 := hk "https://www.kapitalbank.uz/services/exchange-rates-new/" (by decide)
    simp only [kapitalbankRun, kapitalUrls, kapLoop, e1, e2, e3, e4]

/-- Witness for the amended C2, with every fetch raising its URL as message. -/
theorem c2_amended_witness :
    hamkorbankRun "2026-01-01" (fun u => Except.error u)
      = ⟨"Hamkorbank", "2026-01-01", [], "https://hamkorbank.uz/ru/exchange-rate/"⟩ ∧
    agrobankRun "2026-01-01" (fun u => Except.error u)
      = ⟨"Agrobank", "2026-01-01", [], "https://agrobank.uz/ru/person"⟩ ∧
    ipakyulibankRun "2026-01-01" (fun u => Except.error u)
      = ⟨"Ipak Yuli Bank", "2026-01-01", [], "https://ipakyulibank.uz/ru"⟩ ∧
    tbcBankUzRun "2026-01-01" (fun u => Except.error u)
      = ⟨"TBC Bank Uzbekistan", "2026-01-01", [], "https://tbcbank.uz/ru"⟩ ∧
    kapitalbankRun "2026-01-01" (fun u => Except.error u)
      = Except.error "https://www.kapitalbank.uz/services/exchange-rates-new/" :=
  c2_amended_all_urls_fail "2026-01-01" (fun u => Except.error u) (fun u => u)
    (fun _ _ => rfl) (fun _ _ => rfl) (fun _ _ => rfl) (fun _ _ => rfl) (fun _ _ => rfl)

/-- C3 counterexample: with two qualifying USD rows (100, 105) then
(200, 205), the Agrobank adapter keeps the rate of the LAST row, not the
first as the claim asserts for Agrobank/Ipak Yuli/TBC. -/
theorem c3_counterexample :
    agrobankRun "2026-01-01"
        (fun u => if u = "https://agrobank.uz/ru/person"
          then Except.ok [["USD", "100", "105"], ["USD", "200", "205"]]
          else Except.error "e")
      = ⟨"Agrobank", "2026-01-01", [⟨"USD", some 200, some 205⟩],
          "https://agrobank.uz/ru/person"⟩ ∧
    ([(⟨"USD", some 200, some 205⟩ : Rate)] : List Rate) ≠ [⟨"USD", some 100, some 105⟩] :=
  ⟨by decide, by decide⟩

/-- C3 (amended): in the Agrobank/Ipak Yuli/TBC shared reduction — exactly as
in Hamkorbank's — the per-currency dict is last-wins: the rate kept for a
currency is the one from the LAST qualifying row in scan order, and the final
output reads these last-row rates off in major order; Kapitalbank instead
averages (see C5). -/
theorem c3_amended_last_row_wins (rows : List (List String)) (c : String) :
    dictLookup (pyDict (majorScanRates rows)) c
      = (majorScanRates rows).reverse.find? (fun r => decide (r.ccy = c)) ∧
    dictLookup (pyDict (hamkorScanRates rows)) c
      = (hamkorScanRates rows).reverse.find? (fun r => decide (r.ccy = c)) ∧
    (∀ rs, majorProcess rows = some rs →
      rs = MAJORS.filterMap
        (fun c => (majorScanRates rows).reverse.find? (fun r => decide (r.ccy = c)))) := by
  refine ⟨pyDict_lookup _ _, pyDict_lookup _ _, ?_⟩
  intro rs h
  rw [majorProcess_some h, majorPick]
  simp only [pyDict_lookup]

/-- Witness for the amended C3 on a page with two USD rows. -/
theorem c3_amended_witness :
    dictLookup (pyDict (majorScanRates [["USD", "100", "105"], ["USD", "200", "205"]])) "USD"
      = (majorScanRates [["USD", "100", "105"], ["USD", "200", "205"]]).reverse.find?
          (fun r => decide (r.ccy = "USD")) ∧
    ([(⟨"USD", some 200, some 205⟩ : Rate)] : List Rate) = MAJORS.filterMap
      (fun c => (majorScanRates [["USD", "100", "105"], ["USD", "200", "205"]]).reverse.find?
        (fun r => decide (r.ccy = c))) := by
  have h := c3_amended_last_row_wins [["USD", "100", "105"], ["USD", "200", "205"]] "USD"
  exact ⟨h.1, h.2.2 [⟨"USD", some 200, some 205⟩] (by decide)⟩

/-- C8: the orchestrator treats a raising adapter as "no result"; the
reference fallback affects the output exactly when the collection of
non-empty adapter results is empty; and when the fallback also yields
nothing, the serialised output is the (valid) empty array, with the run
completing normally (the orchestrator is a total function here). -/
theorem c8_fallback_exactly_on_empty :
    (∀ (e : String) (rest : List (Except String BankRates)),
      collectOut (Except.error e :: rest) = collectOut rest) ∧
    (∀ (results : List (Except String BankRates)) (ref : Option BankRates),
      collectOut results ≠ [] → mainOut results ref = collectOut results) ∧
    (∀ (results : List (Except String BankRates)) (br : BankRates),
      collectOut results = [] → mainOut results (some br) = [br]) ∧
    (∀ results : List (Except String BankRates),
      collectOut results = [] → mainOut results none = []) := by
  refine ⟨?_, ?_, ?_, ?_⟩
  · intro e rest; rfl
  · intro results ref h
    rw [mainOut.eq_def]
    dsimp only
    rw [if_neg (by simpa using h)]
  · intro results br h
    rw [mainOut.eq_def]
    dsimp only
    rw [if_pos (by simpa using h)]
  · intro results h
    rw [mainOut.eq_def]
    dsimp only
    rw [if_pos (by simpa using h)]

/-- Witness for C8: a raising adapter yields an empty collection and an empty
output; a non-empty collection is passed through untouched. -/
theorem c8_witness :
    mainOut [Except.error "x"] none = [] ∧
    mainOut [Except.ok ⟨"B", "d", [⟨"USD", some 1, some 2⟩], "u"⟩] none
      = collectOut [Except.ok ⟨"B", "d", [⟨"USD", some 1, some 2⟩], "u"⟩] :=
  ⟨c8_fallback_exactly_on_empty.2.2.2 _ (by decide),
   c8_fallback_exactly_on_empty.2.1 _ none (by decide)⟩

/-- C9 counterexample: no command line selects exactly the TBC Bank adapter:
its function name `tbc_bank_uz` contains underscores, so it never passes the
`isalpha()` filter that produces the name filter, and any other token selects
a different set. (When the filter stays empty, all five adapters run.) -/
theorem c9_counterexample :
    ¬ ∃ args : List String, selectNames (parseOnly args) = ["tbc_bank_uz"] := by
  rintro ⟨args, heq⟩
  cases h : parseOnly args with
  | none =>
    rw [h] at heq
    exact absurd heq (by decide)
  | some t =>
    rw [h] at heq
    have hp := List.find?_some h
    have ht : pyIsAlpha t = true := (Bool.and_eq_true _ _ |>.mp hp).1
    have hmem : "tbc_bank_uz" ∈ ADAPTER_NAMES.filter (fun n => n == t) := by
      rw [show selectNames (some t) = ADAPTER_NAMES.filter (fun n => n == t) from rfl] at heq
      rw [heq]
      exact List.mem_singleton_self _
    have hbeq := List.of_mem_filter hmem
    have hteq : "tbc_bank_uz" = t := eq_of_beq hbeq
    rw [← hteq] at ht
    exact absurd ht (by decide)

/-- C9 (amended): with no positional name token the orchestrator runs all
five adapters in the fixed source order; each of `hamkorbank`, `agrobank`,
`kapitalbank` and `ipakyulibank` is selectable alone by its function name,
but no alphabetic token selects the TBC Bank adapter alone (its name
`tbc_bank_uz` fails `isalpha()`). -/
theorem c9_amended_selection :
    selectNames (parseOnly [])
      = ["hamkorbank", "agrobank", "kapitalbank", "ipakyulibank", "tbc_bank_uz"] ∧
    selectNames (parseOnly ["hamkorbank"]) = ["hamkorbank"] ∧
    selectNames (parseOnly ["agrobank"]) = ["agrobank"] ∧
    selectNames (parseOnly ["kapitalbank"]) = ["kapitalbank"] ∧
    selectNames (parseOnly ["ipakyulibank"]) = ["ipakyulibank"] ∧
    (∀ t : String, pyIsAlpha t = true → selectNames (some t) ≠ ["tbc_bank_uz"]) := by
  refine ⟨by decide, by decide, by decide, by decide, by decide, ?_⟩
  intro t ht heq
  have hmem : "tbc_bank_uz" ∈ ADAPTER_NAMES.filter (fun n => n == t) := by
    rw [show selectNames (some t) = ADAPTER_NAMES.filter (fun n => n == t) from rfl] at heq
    rw [heq]
    exact List.mem_singleton_self _
  have hbeq := List.of_mem_filter hmem
  have hteq : "tbc_bank_uz" = t := eq_of_beq hbeq
  rw [← hteq] at ht
  exact absurd ht (by decide)

/-- Witness for the amended C9: an alphabetic token close to TBC's name still
fails to select the TBC adapter alone. -/
theorem c9_amended_witness : selectNames (some "tbcbankuz") ≠ ["tbc_bank_uz"] :=
  c9_amended_selection.2.2.2.2.2 "tbcbankuz" (by decide)

/-! ### Kapitalbank averaging and output shape -/

theorem kapAvg_standard (c : String) (arr : List Rate) (h : arr ≠ []) :
    kapAvg c arr
      = ⟨c, some (round2 ((arr.filterMap Rate.buy).sum / (arr.length : ℚ))),
          some (round2 ((arr.filterMap Rate.sell).sum / (arr.length : ℚ)))⟩ := by
  have hn : arr.length ≠ 0 := fun hx => h (List.length_eq_zero.mp hx)
  rw [kapAvg, sumQ_eq_sum, sumQ_eq_sum, divNatQ_eq_div _ _ hn, divNatQ_eq_div _ _ hn]

theorem kapRawOut_shape {rows : List (List String)} {r : Rate}
    (h : r ∈ kapRawOut rows) :
    r.ccy ∈ MAJORS ∧ (∃ q, r.buy = some q) ∧ ∃ q, r.sell = some q := by
  rw [kapRawOut] at h
  obtain ⟨p, hp, hr⟩ := List.mem_map.mp h
  have hk : p.1 ∈ (kapGroups (kapScanRates rows)).map Prod.fst :=
    List.mem_map_of_mem _ hp
  obtain ⟨r', hr', hcc⟩ := (kapGroups_keys_mem _ _).mp hk
  have hshape := scanRates_shape (show r' ∈ scanRates MAJORS false rows from hr')
  subst hr
  exact ⟨by rw [show (kapAvg p.1 p.2).ccy = p.1 from rfl, ← hcc]; exact hshape.1,
    ⟨_, rfl⟩, ⟨_, rfl⟩⟩

/-- C5: when several scanned Kapitalbank rows share a currency, the final
output holds exactly one rate for that currency, whose buy and sell are the
arithmetic means of the rows' buys and sells, rounded to 2 decimal places. -/
theorem c5_kapitalbank_averaging (rows : List (List String)) (c : String) (arr : List Rate)
    (harr : (kapScanRates rows).filter (fun r => r.ccy == c) = arr)
    (h2 : 2 ≤ arr.length) :
    (kapSortedOut rows).countP (fun r => r.ccy == c) = 1 ∧
    (⟨c, some (round2 ((arr.filterMap Rate.buy).sum / (arr.length : ℚ))),
        some (round2 ((arr.filterMap Rate.sell).sum / (arr.length : ℚ)))⟩ : Rate)
      ∈ kapSortedOut rows := by
  have hne : arr ≠ [] := by
    intro hx
    rw [hx] at h2
    exact absurd h2 (by decide)
  have hlook : dictLookup (kapGroups (kapScanRates rows)) c = some arr := by
    rw [kapGroups_lookup, harr]
    cases arr with
    | nil => exact absurd rfl hne
    | cons a t => rfl
  have hpair : (c, arr) ∈ kapGroups (kapScanRates rows) := dictLookup_mem_pair hlook
  constructor
  · rw [(kapSortedOut_perm rows).countP_eq, kapRawOut, List.countP_map]
    have hcnt : ∀ g : List (String × List Rate),
        g.countP ((fun r : Rate => r.ccy == c) ∘ fun p => kapAvg p.1 p.2)
          = (g.map Prod.fst).count c := by
      intro g
      rw [List.count, List.countP_map]
      rfl
    rw [hcnt]
    exact List.count_eq_one_of_mem (kapGroups_keys_nodup _)
      (List.mem_map_of_mem _ hpair)
  · have hmem : kapAvg c arr ∈ kapRawOut rows := by
      rw [kapRawOut]
      exact List.mem_map_of_mem _ hpair
    rw [← kapAvg_standard c arr hne]
    exact ((kapSortedOut_perm rows).mem_iff).mpr hmem

/-- Witness for C5: two EUR rows (100, 105) and (102, 107) average to one EUR
rate (101, 106). -/
theorem c5_witness :
    (kapSortedOut [["EUR", "100", "105"], ["EUR", "102", "107"]]).countP
        (fun r => r.ccy == "EUR") = 1 ∧
    (⟨"EUR",
      some (round2 ((([⟨"EUR", some 100, some 105⟩, ⟨"EUR", some 102, some 107⟩]
          : List Rate).filterMap Rate.buy).sum / ((2 : Nat) : ℚ))),
      some (round2 ((([⟨"EUR", some 100, some 105⟩, ⟨"EUR", some 102, some 107⟩]
          : List Rate).filterMap Rate.sell).sum / ((2 : Nat) : ℚ)))⟩ : Rate)
      ∈ kapSortedOut [["EUR", "100", "105"], ["EUR", "102", "107"]] :=
  c5_kapitalbank_averaging [["EUR", "100", "105"], ["EUR", "102", "107"]] "EUR"
    [⟨"EUR", some 100, some 105⟩, ⟨"EUR", some 102, some 107⟩] (by decide) (by decide)

/-- C6: the Hamkorbank adapter (and the Agrobank/Ipak Yuli/TBC shared
reduction) outputs exactly the scraped major currencies in the fixed order
USD, EUR, RUB, dropping any other scraped currency; the Kapitalbank adapter
outputs its full found set sorted strictly alphabetically by currency code. -/
theorem c6_output_order_and_restriction :
    (∀ rows rs, hamkorProcess rows = some rs →
      rs.map Rate.ccy
        = MAJORS.filter (fun c => (hamkorScanRates rows).any (fun r => r.ccy == c))) ∧
    (∀ rows rs, majorProcess rows = some rs →
      rs.map Rate.ccy
        = MAJORS.filter (fun c => (majorScanRates rows).any (fun r => r.ccy == c))) ∧
    (∀ rows : List (List String),
      (kapSortedOut rows).Pairwise (fun a b => a.ccy < b.ccy)) ∧
    (∀ (rows : List (List String)) (c : String),
      (∃ r ∈ kapSortedOut rows, r.ccy = c) ↔ ∃ r ∈ kapScanRates rows, r.ccy = c) := by
  refine ⟨?_, ?_, ?_, ?_⟩
  · intro rows rs h
    rw [hamkorProcess_some h]
    exact majorPick_map_ccy (hamkorScanRates rows)
  · intro rows rs h
    rw [majorProcess_some h]
    exact majorPick_map_ccy (majorScanRates rows)
  · intro rows
    have hs : (kapSortedOut rows).Pairwise ccyLE := kapSortedOut_sorted rows
    have hn : ((kapSortedOut rows).map Rate.ccy).Nodup := kapSortedOut_map_ccy_nodup rows
    have hne : (kapSortedOut rows).Pairwise (fun a b => a.ccy ≠ b.ccy) :=
      (List.pairwise_map).mp hn
    exact (hs.and hne).imp (fun h => lt_of_le_of_ne h.1 h.2)
  · intro rows c
    have h1 : (∃ r ∈ kapSortedOut rows, r.ccy = c) ↔ c ∈ (kapSortedOut rows).map Rate.ccy := by
      rw [List.mem_map]
    rw [h1, ((kapSortedOut_perm rows).map Rate.ccy).mem_iff, kapRawOut_map_ccy,
      kapGroups_keys_mem]

/-- Witness for C6: a page with a GBP row and a USD row makes Hamkorbank
report only USD. -/
theorem c6_witness :
    ([(⟨"USD", some 3, some 4⟩ : Rate)] : List Rate).map Rate.ccy
      = MAJORS.filter (fun c =>
          (hamkorScanRates [["GBP", "1", "2"], ["USD", "3", "4"]]).any
            (fun r => r.ccy == c)) :=
  c6_output_order_and_restriction.1 [["GBP", "1", "2"], ["USD", "3", "4"]]
    [⟨"USD", some 3, some 4⟩] (by decide)

/-- C7: the reference fallback returns no result (rather than raising) on a
fetch exception or bad data; for each major currency present in the parsed
reference mapping it emits a rate with buy = sell = the reference value; and
every rate it emits has buy equal to sell and a major currency code. -/
theorem c7_reference_fallback :
    (∀ today msg, cbu_reference today (Except.error msg) = none) ∧
    (∀ today items, cbuDict items [] = none →
      cbu_reference today (Except.ok items) = none) ∧
    (∀ today items d c v, cbuDict items [] = some d → c ∈ MAJORS →
      dictLookup d c = some v →
      ∃ br, cbu_reference today (Except.ok items) = some br ∧
        (⟨c, some v, some v⟩ : Rate) ∈ br.rates) ∧
    (∀ today res br, cbu_reference today res = some br →
      ∀ r ∈ br.rates, r.buy = r.sell ∧ r.ccy ∈ MAJORS) := by
  refine ⟨?_, ?_, ?_, ?_⟩
  · intro today msg; rfl
  · intro today items h
    rw [cbu_reference, h]
  · intro today items d c v hd hc hv
    have hw : (⟨c, some v, some v⟩ : Rate) ∈ cbuWanted d := cbuWanted_present hc hv
    have hne : ¬ (cbuWanted d).isEmpty = true := by
      intro hx
      rw [List.isEmpty_iff] at hx
      rw [hx] at hw
      exact absurd hw (List.not_mem_nil _)
    rw [cbu_reference, hd]
    dsimp only
    rw [if_neg hne]
    exact ⟨_, rfl, hw⟩
  · intro today res br h r hr
    obtain ⟨data, d, _, _, hrates⟩ := cbu_reference_some h
    rw [hrates] at hr
    obtain ⟨hccy, v, hb, hs⟩ := cbuWanted_mem hr
    exact ⟨by rw [hb, hs], hccy⟩

/-- Witness for C7: one reference item for USD yields a USD rate with
buy = sell = 12345. -/
theorem c7_witness :
    ∃ br, cbu_reference "2026-01-01"
        (Except.ok [⟨some "USD", some "12345.0"⟩]) = some br ∧
      (⟨"USD", some 12345, some 12345⟩ : Rate) ∈ br.rates :=
  c7_reference_fallback.2.2.1 "2026-01-01" [⟨some "USD", some "12345.0"⟩]
    [("USD", 12345)] "USD" 12345 (by decide) (by decide) (by decide)

/-! ### Full-run invariants -/

theorem majors_sub_ccys : ∀ c ∈ MAJORS, c ∈ CCYSlist := by
  intro c hc
  fin_cases hc <;> decide

theorem tryUrls_major_shape {bank today firstUrl : String}
    {proc : List (List String) → Option (List Rate)}
    {fetch : String → Except String (List (List String))} {urls : List String} {r : Rate}
    (hproc : proc = hamkorProcess ∨ proc = majorProcess)
    (hr : r ∈ (tryUrls bank today firstUrl proc fetch urls).rates) :
    r.ccy ∈ CCYSlist ∧ (∃ q, r.buy = some q) ∧ ∃ q, r.sell = some q := by
  obtain ⟨page, rs, hp, hmem⟩ := tryUrls_mem_rates hr
  cases hproc with
  | inl h =>
    subst h
    have hpick := hamkorProcess_some hp
    rw [hpick] at hmem
    have hscan := majorPick_mem hmem
    exact scanRates_shape (show r ∈ scanRates CCYSlist true page from hscan)
  | inr h =>
    subst h
    have hpick := majorProcess_some hp
    rw [hpick] at hmem
    have hscan := majorPick_mem hmem
    have hshape := scanRates_shape (show r ∈ scanRates MAJORS false page from hscan)
    exact ⟨majors_sub_ccys _ hshape.1, hshape.2⟩

/-- C10: every rate appearing in the persisted output of a full run has a
currency from the fixed allow-list and non-null buy and sell — the adapters
only retain rates with both numbers parsed, and the reference fallback also
emits both (equal) values. -/
theorem c10_output_invariants (today : String)
    (fetch : String → Except String (List (List String)))
    (cbuRes : Except String (List CbuItem)) :
    ∀ br ∈ runAll today fetch cbuRes, ∀ r ∈ br.rates,
      r.ccy ∈ CCYSlist ∧ r.buy ≠ none ∧ r.sell ≠ none := by
  intro br hbr r hr
  have toGoal : (r.ccy ∈ CCYSlist ∧ (∃ q, r.buy = some q) ∧ ∃ q, r.sell = some q) →
      r.ccy ∈ CCYSlist ∧ r.buy ≠ none ∧ r.sell ≠ none := by
    rintro ⟨h1, ⟨q1, h2⟩, ⟨q2, h3⟩⟩
    exact ⟨h1, by rw [h2]; exact Option.some_ne_none _, by rw [h3]; exact Option.some_ne_none _⟩
  apply toGoal
  rw [runAll] at hbr
  cases mainOut_mem hbr with
  | inl hcol =>
    obtain ⟨hok, _⟩ := collectOut_mem hcol
    rcases runResults_mem hok with h | h | h | h | h
    · have hb : br = hamkorbankRun today fetch := by
        injection h
      rw [hb] at hr
      exact tryUrls_major_shape (Or.inl rfl) hr
    · have hb : br = agrobankRun today fetch := by
        injection h
      rw [hb] at hr
      exact tryUrls_major_shape (Or.inr rfl) hr
    · have hkap := kapLoop_ok_rates h.symm
      cases hkap with
      | inl hemp => rw [hemp] at hr; exact absurd hr (List.not_mem_nil r)
      | inr hpage =>
        obtain ⟨page, hpage⟩ := hpage
        rw [hpage] at hr
        have hraw := ((kapSortedOut_perm page).mem_iff).mp hr
        have hshape := kapRawOut_shape hraw
        exact ⟨majors_sub_ccys _ hshape.1, hshape.2⟩
    · have hb : br = ipakyulibankRun today fetch := by
        injection h
      rw [hb] at hr
      exact tryUrls_major_shape (Or.inr rfl) hr
    · have hb : br = tbcBankUzRun today fetch := by
        injection h
      rw [hb] at hr
      exact tryUrls_major_shape (Or.inr rfl) hr
  | inr href =>
    obtain ⟨data, d, _, _, hrates⟩ := cbu_reference_some href
    rw [hrates] at hr
    obtain ⟨hccy, v, hb, hs⟩ := cbuWanted_mem hr
    exact ⟨majors_sub_ccys _ hccy, ⟨v, hb⟩, ⟨v, hs⟩⟩

/-- Witness for C10 on a run in which only Hamkorbank's first URL succeeds. -/
theorem c10_witness :
    ("USD" : String) ∈ CCYSlist ∧ (some (3 : ℚ) ≠ none) ∧ (some (4 : ℚ) ≠ none) :=
  c10_output_invariants "2026-01-01"
    (fun u => if u = "https://hamkorbank.uz/ru/exchange-rate/"
      then Except.ok [["USD", "3", "4"]] else Except.error "e")
    (Except.error "x")
    ⟨"Hamkorbank", "2026-01-01", [⟨"USD", some 3, some 4⟩],
      "https://hamkorbank.uz/ru/exchange-rate/"⟩
    (by decide) ⟨"USD", some 3, some 4⟩ (by decide)

/-! ### Character-class lemmas for the numeric normaliser -/

theorem isPyWs_cases {c : Char} (h : isPyWs c = true) :
    c = ' ' ∨ c = '\t' ∨ c = '\n' ∨ c = '\r' ∨ c = '\x0b' ∨ c = '\x0c' ∨ c = nbsp := by
  simp [isPyWs] at h
  tauto

theorem isDigit_not_pyWs {c : Char} (h : c.isDigit = true) : isPyWs c = false := by
  cases hpw : isPyWs c with
  | false => rfl
  | true =>
    rcases isPyWs_cases hpw with h1|h1|h1|h1|h1|h1|h1 <;> subst h1 <;>
      exact absurd h (by decide)

theorem notSpace_nbspToSpace_digit {c : Char} (h : c.isDigit = true) :
    notSpace (nbspToSpace c) = true := by
  rw [nbspToSpace]
  by_cases h1 : c = nbsp
  · subst h1; exact absurd h (by decide)
  · rw [if_neg h1, notSpace]
    by_cases h2 : c = ' '
    · subst h2; exact absurd h (by decide)
    · simp [h2]

theorem notSpace_nbspToSpace_ws {c : Char} (h : c = ' ' ∨ c = nbsp) :
    notSpace (nbspToSpace c) = false := by
  rcases h with h|h <;> subst h <;> decide

theorem commaToDot_nbspToSpace_digit {c : Char} (h : c.isDigit = true) :
    commaToDot (nbspToSpace c) = c := by
  rw [nbspToSpace]
  by_cases h1 : c = nbsp
  · subst h1; exact absurd h (by decide)
  · rw [if_neg h1, commaToDot]
    by_cases h2 : c = ','
    · subst h2; exact absurd h (by decide)
    · rw [if_neg h2]

/-! ### Filtering commutes with the strip -/

theorem filter_dropWhile_of_imp (p q : Char → Bool) :
    ∀ l : List Char, (∀ c ∈ l, q c = true → p c = false) →
      (l.dropWhile q).filter p = l.filter p := by
  intro l
  induction l with
  | nil => intro _; rfl
  | cons a t ih =>
    intro h
    cases hq : q a with
    | false => rw [List.dropWhile_cons_of_neg (by simp [hq])]
    | true =>
      rw [List.dropWhile_cons_of_pos hq]
      rw [ih (fun c hc hqc => h c (List.mem_cons_of_mem _ hc) hqc)]
      rw [List.filter_cons_of_neg (by simp [h a (List.mem_cons_self _ _) hq])]

theorem filter_pyStrip_of_imp (p : Char → Bool) (l : List Char)
    (h : ∀ c ∈ l, isPyWs c = true → p c = false) :
    (pyStrip l).filter p = l.filter p := by
  have hsub : ∀ c ∈ (l.dropWhile isPyWs).reverse, isPyWs c = true → p c = false := by
    intro c hc
    exact h c ((List.dropWhile_sublist isPyWs).subset (List.mem_reverse.mp hc))
  rw [pyStrip, List.filter_reverse, filter_dropWhile_of_imp p isPyWs _ hsub,
    List.filter_reverse, filter_dropWhile_of_imp p isPyWs l h, List.reverse_reverse]

/-- On an input of the shape `whitespace, grouped digits, separator, digits,
whitespace`, the `_num` preprocessing yields exactly `digits.digits`. -/
theorem numPre_eq (w₁ w₂ g f : List Char) (sep : Char)
    (hw₁ : ∀ c ∈ w₁, c = ' ' ∨ c = nbsp) (hw₂ : ∀ c ∈ w₂, c = ' ' ∨ c = nbsp)
    (hg : ∀ c ∈ g, c.isDigit = true ∨ c = ' ' ∨ c = nbsp)
    (hf : ∀ c ∈ f, c.isDigit = true)
    (hsep : sep = '.' ∨ sep = ',') :
    numPre (w₁ ++ g ++ sep :: (f ++ w₂)) = g.filter Char.isDigit ++ '.' :: f := by
  rw [numPre, List.filter_map, List.map_map]
  rw [filter_pyStrip_of_imp _ _ ?hws]
  case hws =>
    intro c hc hws
    show notSpace (nbspToSpace c) = false
    rcases List.mem_append.mp hc with hc1 | hc2
    · rcases List.mem_append.mp hc1 with hcw | hcg
      · exact notSpace_nbspToSpace_ws (hw₁ c hcw)
      · rcases hg c hcg with hd | hws'
        · rw [isDigit_not_pyWs hd] at hws
          exact absurd hws (by simp)
        · exact notSpace_nbspToSpace_ws hws'
    · rcases List.mem_cons.mp hc2 with hcs | hcf
      · subst hcs
        rcases hsep with h|h <;> rw [h] at hws <;> exact absurd hws (by decide)
      · rcases List.mem_append.mp hcf with hcf' | hcw
        · rw [isDigit_not_pyWs (hf c hcf')] at hws
          exact absurd hws (by simp)
        · exact notSpace_nbspToSpace_ws (hw₂ c hcw)
  have hw₁f : w₁.filter (notSpace ∘ nbspToSpace) = [] :=
    List.filter_eq_nil_iff.mpr (fun c hc => by
      simp [Function.comp, notSpace_nbspToSpace_ws (hw₁ c hc)])
  have hw₂f : w₂.filter (notSpace ∘ nbspToSpace) = [] :=
    List.filter_eq_nil_iff.mpr (fun c hc => by
      simp [Function.comp, notSpace_nbspToSpace_ws (hw₂ c hc)])
  have hgf : g.filter (notSpace ∘ nbspToSpace) = g.filter Char.isDigit :=
    List.filter_congr (fun c hc => by
      rcases hg c hc with hd | hws'
      · show notSpace (nbspToSpace c) = c.isDigit
        rw [notSpace_nbspToSpace_digit hd, hd]
      · show notSpace (nbspToSpace c) = c.isDigit
        rw [notSpace_nbspToSpace_ws hws']
        have hnd : c.isDigit = false := by rcases hws' with h|h <;> subst h <;> decide
        rw [hnd])
  have hff : f.filter (notSpace ∘ nbspToSpace) = f :=
    List.filter_eq_self.mpr (fun c hc => by
      show notSpace (nbspToSpace c) = true
      exact notSpace_nbspToSpace_digit (hf c hc))
  have hsepB : (notSpace ∘ nbspToSpace) sep = true := by
    rcases hsep with h|h <;> subst h <;> decide
  rw [List.filter_append, List.filter_append, List.filter_cons, if_pos hsepB,
    List.filter_append, hw₁f, hw₂f, hgf, hff, List.nil_append, List.append_nil]
  have hsepD : (commaToDot ∘ nbspToSpace) sep = '.' := by
    rcases hsep with h|h <;> subst h <;> decide
  rw [List.map_append, List.map_cons, hsepD]
  rw [List.map_congr_left (fun c hc =>
      show (commaToDot ∘ nbspToSpace) c = id c from
        commaToDot_nbspToSpace_digit (List.of_mem_filter hc)), List.map_id]
  rw [List.map_congr_left (fun c hc =>
      show (commaToDot ∘ nbspToSpace) c = id c from
        commaToDot_nbspToSpace_digit (hf c hc)), List.map_id]

/-! ### Matching and converting `digits.digits` -/

theorem takeWhile_digits_prefix (gd m : List Char) (hgd : ∀ c ∈ gd, c.isDigit = true)
    (hm : m.takeWhile Char.isDigit = []) :
    (gd ++ m).takeWhile Char.isDigit = gd := by
  rw [List.takeWhile_append_of_pos hgd, hm, List.append_nil]

theorem isEmpty_false_of_ne_nil {l : List Char} (h : l ≠ []) : l.isEmpty = false := by
  cases l with
  | nil => exact absurd rfl h
  | cons a t => rfl

theorem wholeMatch_decimal (gd f : List Char) (hgd : ∀ c ∈ gd, c.isDigit = true)
    (hgd0 : gd ≠ []) (hf : ∀ c ∈ f, c.isDigit = true) (hf0 : f ≠ []) :
    wholeMatch (gd ++ '.' :: f) = true := by
  have htw : (gd ++ '.' :: f).takeWhile Char.isDigit = gd :=
    takeWhile_digits_prefix gd _ hgd (List.takeWhile_cons_of_neg (by decide))
  have hdrop : (gd ++ '.' :: f).drop gd.length = '.' :: f := List.drop_left gd _
  have hcore : wholeCore (gd ++ '.' :: f) = true := by
    have hdig : digitsNE f = true := by
      have hdef : digitsNE f = (!f.isEmpty && f.all Char.isDigit) := rfl
      rw [hdef, isEmpty_false_of_ne_nil hf0, List.all_eq_true.mpr hf]
      rfl
    rw [wholeCore]
    try dsimp only
    rw [htw, hdrop, isEmpty_false_of_ne_nil hgd0]
    split
    all_goals
      first
      | (rename_i fr heq
         cases heq
         rw [hdig]
         rfl)
      | (rename_i heq
         exact absurd rfl (heq f))
      | (rename_i heq
         exact absurd heq (by simp))
  cases gd with
  | nil => exact absurd rfl hgd0
  | cons d gd' =>
    have hd : d.isDigit = true := hgd d (List.mem_cons_self _ _)
    rw [wholeMatch.eq_def]
    split
    · rename_i t heq
      rw [List.cons_append] at heq
      injection heq with h1 _
      rw [h1] at hd
      exact absurd hd (by decide)
    · exact hcore

theorem dropWhile_eq_self_of_all (q : Char → Bool) (l : List Char)
    (h : ∀ c ∈ l, q c = false) : l.dropWhile q = l := by
  cases l with
  | nil => rfl
  | cons a t => exact List.dropWhile_cons_of_neg (by simp [h a (List.mem_cons_self _ _)])

theorem pyStrip_eq_self (l : List Char) (h : ∀ c ∈ l, isPyWs c = false) :
    pyStrip l = l := by
  rw [pyStrip, dropWhile_eq_self_of_all _ _ h,
    dropWhile_eq_self_of_all _ _ (fun c hc => h c (List.mem_reverse.mp hc)),
    List.reverse_reverse]

theorem floatUnsigned_decimal (gd f : List Char) (hgd : ∀ c ∈ gd, c.isDigit = true)
    (hgd0 : gd ≠ []) (hf : ∀ c ∈ f, c.isDigit = true) :
    floatUnsigned (gd ++ '.' :: f)
      = some (mkRat (natOfDigits gd * 10 ^ f.length + natOfDigits f) (10 ^ f.length)) := by
  have htw : (gd ++ '.' :: f).takeWhile Char.isDigit = gd :=
    takeWhile_digits_prefix gd _ hgd (List.takeWhile_cons_of_neg (by decide))
  have hdrop : (gd ++ '.' :: f).drop gd.length = '.' :: f := List.drop_left gd _
  have hfw : f.takeWhile Char.isDigit = f := by
    have h0 : (f ++ ([] : List Char)).takeWhile Char.isDigit = f ++ [] :=
      List.takeWhile_append_of_pos hf ▸ by rw [List.takeWhile_nil]
    simpa using h0
  rw [floatUnsigned]
  try dsimp only
  rw [htw, hdrop]
  split
  all_goals
    first
    | (rename_i fr heq
       cases heq
       rw [hfw, List.drop_length]
       rw [if_neg (by decide)]
       rw [isEmpty_false_of_ne_nil hgd0]
       rw [if_neg (by simp)])
    | (rename_i heq
       exact absurd rfl (heq f))
    | (rename_i heq
       exact absurd heq (by simp))

theorem pyFloat_decimal (gd f : List Char) (hgd : ∀ c ∈ gd, c.isDigit = true)
    (hgd0 : gd ≠ []) (hf : ∀ c ∈ f, c.isDigit = true) :
    pyFloat (gd ++ '.' :: f)
      = some (mkRat (natOfDigits gd * 10 ^ f.length + natOfDigits f) (10 ^ f.length)) := by
  have hnws : ∀ c ∈ gd ++ '.' :: f, isPyWs c = false := by
    intro c hc
    rcases List.mem_append.mp hc with h1 | h2
    · exact isDigit_not_pyWs (hgd c h1)
    · rcases List.mem_cons.mp h2 with h3 | h4
      · subst h3; decide
      · exact isDigit_not_pyWs (hf c h4)
  have hstrip := pyStrip_eq_self _ hnws
  cases gd with
  | nil => exact absurd rfl hgd0
  | cons d gd' =>
    have hd : d.isDigit = true := hgd d (List.mem_cons_self _ _)
    rw [pyFloat.eq_def, hstrip, List.cons_append]
    split
    all_goals
      first
      | (rename_i t heq
         injection heq with h1 h2
         rw [h1] at hd
         exact absurd hd (by decide))
      | (rw [← List.cons_append]
         exact floatUnsigned_decimal (d :: gd') f hgd (by simp) hf)

theorem mkRat_decimal_eq (i fd k : Nat) :
    mkRat (i * 10 ^ k + fd) (10 ^ k) = (i : ℚ) + (fd : ℚ) / 10 ^ k := by
  rw [Rat.mkRat_eq_div]
  push_cast
  have h10 : ((10 : ℚ) ^ k) ≠ 0 := by positivity
  field_simp

/-- C4: the numeric normaliser `_num` maps every string of the form
`<digits>[.,]<digits>` — with optional surrounding spaces or no-break spaces
and optional space-grouped thousands in the integer part — to its dot-decimal
value; the empty string and a digit-free string yield no value; and on a
string where the whole-string match fails but a decimal number is embedded,
it returns that first embedded number (`"Покупка: 1 234.50 сум"` ↦ 1234.5). -/
theorem c4_numeric_normaliser :
    (∀ (w₁ w₂ g f : List Char) (sep : Char),
      (∀ c ∈ w₁, c = ' ' ∨ c = nbsp) → (∀ c ∈ w₂, c = ' ' ∨ c = nbsp) →
      (∀ c ∈ g, c.isDigit = true ∨ c = ' ' ∨ c = nbsp) → (∃ c ∈ g, c.isDigit = true) →
      (∀ c ∈ f, c.isDigit = true) → f ≠ [] → (sep = '.' ∨ sep = ',') →
      _num (String.mk (w₁ ++ g ++ sep :: (f ++ w₂)))
        = some (decVal (g.filter Char.isDigit) f)) ∧
    _num "" = none ∧
    _num "—" = none ∧
    _num "Покупка: 1 234.50 сум" = some (mkRat 2469 2) := by
  refine ⟨?_, by decide, by decide, by decide⟩
  intro w₁ w₂ g f sep hw₁ hw₂ hg hg0 hf hf0 hsep
  obtain ⟨c0, hc0, hc0d⟩ := hg0
  have hgd : ∀ c ∈ g.filter Char.isDigit, c.isDigit = true :=
    fun c hc => List.of_mem_filter hc
  have hgd0 : g.filter Char.isDigit ≠ [] :=
    List.ne_nil_of_mem (List.mem_filter.mpr ⟨hc0, hc0d⟩)
  have hne : (w₁ ++ g ++ sep :: (f ++ w₂)) ≠ [] := by simp
  have hE : (w₁ ++ g ++ sep :: (f ++ w₂)).isEmpty ≠ true :=
    fun hx => hne (List.isEmpty_iff.mp hx)
  rw [_num]
  show numCore (w₁ ++ g ++ sep :: (f ++ w₂)) = _
  rw [numCore]
  rw [if_neg hE]
  try dsimp only
  rw [numPre_eq w₁ w₂ g f sep hw₁ hw₂ hg hf hsep]
  rw [wholeMatch_decimal _ _ hgd hgd0 hf hf0]
  rw [if_pos rfl]
  rw [pyFloat_decimal _ _ hgd hgd0 hf]
  rw [mkRat_decimal_eq]
  rfl

/-- Witness for C4 at `"12 345,67"`, whose value is 12345.67. -/
theorem c4_witness : _num "12 345,67" = some (mkRat 1234567 100) := by
  have h := c4_numeric_normaliser.1 [] [] ("12 345".data) ("67".data) ','
    (by decide) (by decide) (by decide) (by decide) (by decide) (by decide) (by decide)
  refine h.trans ?_
  rw [decVal, ← mkRat_decimal_eq]
  decide
